import Mathlib

/-!
Verification of the `principia` proof-assistant kernel (python/principia.py and
python/prover/datatypes.py) against its natural-language specification.

The data model and the driver forms are embedded from the source.  The parts of
the checker package that are not in the repository snapshot (prover/checker.py,
prover/parser.py, prover/errors.py) are modelled from the specification, and
each such definition carries a doc comment saying so.
-/

set_option linter.unusedVariables false

namespace Principia

/-- Names of rules, variables and operators (`Name = str` in prover/datatypes.py). -/
abbrev Name := String

/-- The term language of prover/datatypes.py: literal constants, meta-variables,
composite expressions and the anonymous wildcard. -/
inductive Term : Type
  | Lit (name : Name)
  | Var (name : Name)
  | Symtree (children : List Term)
  | Hole

mutual
/-- Structural equality of terms (the `dataclass` equality of prover/datatypes.py). -/
def termEq : Term → Term → Bool
  | .Lit n, .Lit m => n == m
  | .Var n, .Var m => n == m
  | .Symtree cs, .Symtree ds => termListEq cs ds
  | .Hole, .Hole => true
  | _, _ => false

/-- Structural equality of term lists, child by child. -/
def termListEq : List Term → List Term → Bool
  | [], [] => true
  | c :: cs, d :: ds => termEq c d && termListEq cs ds
  | _, _ => false
end

/-- `containsonly` from principia.py (line 16): every character of `s` equals `ch`. -/
def containsonly (ch : Char) (s : String) : Bool :=
  s.data.all (fun c => c == ch)

/-- A substitution: the Python `dict` from variable names to terms, modelled as an
association list whose keys are kept unique by `dictInsert`. -/
abbrev Subst := List (Name × Term)

/-- Lookup in a Python `dict` modelled as an association list. -/
def dictGet {α : Type} (d : List (Name × α)) (k : Name) : Option α :=
  (d.find? (fun p => p.1 == k)).map (fun p => p.2)

/-- Membership test of a Python `dict` (`k in d`). -/
def dictMem {α : Type} (d : List (Name × α)) (k : Name) : Bool :=
  d.any (fun p => p.1 == k)

/-- Assignment `d[k] = v` in a Python `dict`: overwrite in place if the key is
present (keeping its position), otherwise append the new binding. -/
def dictInsert {α : Type} (d : List (Name × α)) (k : Name) (v : α) : List (Name × α) :=
  if dictMem d k then d.map (fun p => if p.1 == k then (k, v) else p) else d ++ [(k, v)]

/-- `d.update(ps)` in Python: insert the bindings of `ps` in order. -/
def dictUpdate {α : Type} (d : List (Name × α)) (ps : List (Name × α)) : List (Name × α) :=
  ps.foldl (fun acc p => dictInsert acc p.1 p.2) d

/-- The keys of a Python `dict` modelled as an association list. -/
def dictKeys {α : Type} (d : List (Name × α)) : List Name :=
  d.map (fun p => p.1)

/-- Python's `dict(pairs)` on an iterator of key/value pairs: start from the empty
dict and assign each pair in order, so a later duplicate overwrites an earlier one. -/
def pydict (ps : List (Name × Term)) : Subst :=
  ps.foldl (fun d p => dictInsert d p.1 p.2) []

mutual
/-- Modelled from the spec: `match` of prover/checker.py (not under src/), §4.B.
Attempts to extend the substitution so that applying it to `pattern` yields the
subject: `Hole` succeeds without binding; a bound `Var` requires structural
equality with its prior binding, an unbound one binds; `Lit` requires an
identical literal; `Symtree` requires a `Symtree` subject of equal length with
children matching in order under the accumulating substitution.  The Python
function mutates `subst` and returns a boolean; since every caller discards the
partial bindings of a failed match, it is modelled as returning `Option Subst`. -/
def matchTerm (σ : Subst) : Term → Term → Option Subst
  | .Hole, _ => some σ
  | .Var n, s =>
    match dictGet σ n with
    | some t => if termEq t s then some σ else none
    | none => some (dictInsert σ n s)
  | .Lit n, s =>
    match s with
    | .Lit m => if n == m then some σ else none
    | _ => none
  | .Symtree ps, s =>
    match s with
    | .Symtree ss => if ps.length = ss.length then matchChildren σ ps ss else none
    | _ => none

/-- Modelled from the spec: the child-by-child loop of `match` on `Symtree`s,
threading the accumulating substitution. -/
def matchChildren (σ : Subst) : List Term → List Term → Option Subst
  | [], [] => some σ
  | p :: ps, s :: ss =>
    match matchTerm σ p s with
    | some σ' => matchChildren σ' ps ss
    | none => none
  | _, _ => none
end

mutual
/-- Modelled from the spec: `multisubst` of prover/checker.py (not under src/),
§4.B.  Replace every `Var n` with `n` in the substitution by its binding, recurse
into `Symtree`, leave `Lit` and `Hole` (and unbound `Var`s) unchanged. -/
def multisubst (σ : Subst) : Term → Term
  | .Lit n => .Lit n
  | .Var n =>
    match dictGet σ n with
    | some t => t
    | none => .Var n
  | .Symtree cs => .Symtree (multisubstList σ cs)
  | .Hole => .Hole

/-- Modelled from the spec: `multisubst` mapped over the children of a `Symtree`. -/
def multisubstList (σ : Subst) : List Term → List Term
  | [] => []
  | c :: cs => multisubst σ c :: multisubstList σ cs
end

/-- The head-rewrite loop of `macroexpand` (principia.py lines 27–31): iterate the
`defs` list in order; the first pattern that matches `τ` from an empty
substitution rewrites `τ` to `multisubst` of the accumulated bindings into the
body, and the loop stops (`break`); if no pattern matches, `τ` is unchanged. -/
def headRewrite (ds : List (Term × Term)) (τ : Term) : Term :=
  match ds with
  | [] => τ
  | (pattern, body) :: rest =>
    match matchTerm [] pattern τ with
    | some substs => multisubst substs body
    | none => headRewrite rest τ

mutual
/-- `macroexpand` of principia.py (lines 26–36): one head rewrite by the first
matching definition, then, whatever the head result is, if it is a `Symtree` its
children are recursively expanded in order.  The Python function need not
terminate (a definition can rewrite a term to a larger one), so the embedding
takes a fuel parameter; `none` models a run that exceeds the fuel. -/
def macroexpand (ds : List (Term × Term)) : Nat → Term → Option Term
  | 0, _ => none
  | fuel + 1, τ =>
    match headRewrite ds τ with
    | .Symtree cs =>
      match macroexpandChildren ds fuel cs with
      | some cs' => some (.Symtree cs')
      | none => none
    | r => some r
termination_by fuel τ => (fuel, 0)

/-- `maplist(partial(macroexpand, curr), τ.children)` of principia.py (line 34):
expand the children of a `Symtree` in order. -/
def macroexpandChildren (ds : List (Term × Term)) : Nat → List Term → Option (List Term)
  | _, [] => some []
  | fuel, c :: cs =>
    match macroexpand ds fuel c, macroexpandChildren ds fuel cs with
    | some c', some cs' => some (c' :: cs')
    | _, _ => none
termination_by fuel cs => (fuel, cs.length + 1)
end

mutual
/-- The macro expander as the specification words it (§4.C): "iterate `defs` in
order; for the first `(pattern, body)` such that `match({}, pattern, term)`
succeeds, replace `term` with `multisubst(subst, body)` and stop.  Then,
regardless of whether a rewrite occurred, if the result is a `Symtree`,
recursively expand its children and return the new `Symtree` with expanded
children."  The first matching definition is selected with `List.findSome?`;
the same fuel discipline as `macroexpand` models possible nontermination. -/
def expandSpec (ds : List (Term × Term)) : Nat → Term → Option Term
  | 0, _ => none
  | fuel + 1, τ =>
    let rewritten :=
      (ds.findSome? fun pb =>
        (matchTerm [] pb.1 τ).map fun substs => multisubst substs pb.2).getD τ
    match rewritten with
    | .Symtree cs =>
      match expandSpecChildren ds fuel cs with
      | some cs' => some (.Symtree cs')
      | none => none
    | r => some r
termination_by fuel τ => (fuel, 0)

/-- The children pass of `expandSpec`, expanding each child in order. -/
def expandSpecChildren (ds : List (Term × Term)) : Nat → List Term → Option (List Term)
  | _, [] => some []
  | fuel, c :: cs =>
    match expandSpec ds fuel c, expandSpecChildren ds fuel cs with
    | some c', some cs' => some (c' :: cs')
    | _, _ => none
termination_by fuel cs => (fuel, cs.length + 1)
end

/-- `InferenceRule` of prover/datatypes.py: premise templates and a conclusion. -/
structure InferenceRule : Type where
  premises : List Term
  conclusion : Term

/-- A proof argument (prover/datatypes.py): either a citation of an established
fact by name (`Lemma`), or the unchecked placeholder (the source names it after
a word that is a Lean keyword; its payload is the report tag). -/
inductive Argument : Type
  | Gap (tag : Name)
  | Lemma (name : Name)

/-- `Proof` of prover/datatypes.py: a cited rule name, one argument per premise,
and the explicit substitution map. -/
structure Proof : Type where
  edge : Name
  arguments : List Argument
  substitutions : Subst

/-- The `Context`: the Python `dict` from rule names to inference rules. -/
abbrev Context := List (Name × InferenceRule)

/-- `State` of prover/datatypes.py.  Two field names of the source collide with
Lean tokens: the schematic-variable list (`variables` in the source) is `vars`
here, and the operator-precedence table (named in the source after the keyword
for infix notation) is `opPrec`. -/
structure State : Type where
  vars : List Name
  opPrec : List (Name × Int)
  context : Context
  bound : List Term
  defs : List (Term × Term)

/-- `State()` with all fields at their empty defaults (principia.py line 205). -/
def State.init : State := ⟨[], [], [], [], []⟩

mutual
/-- `sexpr` of prover/datatypes.py: the canonical textual form of a term. -/
def sexpr : Term → String
  | .Lit n => n
  | .Var n => n
  | .Symtree cs => "(" ++ String.intercalate " " (sexprList cs) ++ ")"
  | .Hole => "_"

/-- `sexpr` mapped over the children of a `Symtree`. -/
def sexprList : List Term → List String
  | [] => []
  | c :: cs => sexpr c :: sexprList cs
end

/-- Modelled from the spec: the verification error kinds of prover/errors.py
(not under src/), §4.F and §7: unknown rule cited, arity mismatch, premise
unification failure, conclusion mismatch. -/
inductive VerificationError : Type
  | unknownRule (name : Name)
  | arityMismatch (name : Name)
  | premiseMismatch (name : Name)
  | conclusionMismatch (expected derived : Term)

/-- Modelled from the spec: the human-readable message carried by a verification
error (prover/errors.py is not under src/; §7 requires the offending names and
rendered terms, the exact wording is not a compatibility surface). -/
def VerificationError.message : VerificationError → String
  | .unknownRule n => "unknown rule “" ++ n ++ "”"
  | .arityMismatch n => "arity mismatch in “" ++ n ++ "”"
  | .premiseMismatch n => "premise mismatch in “" ++ n ++ "”"
  | .conclusionMismatch e d => "expected “" ++ sexpr e ++ "”, derived “" ++ sexpr d ++ "”"

/-- Modelled from the spec: the recursive call `infer(ctx, bound, Proof(name, [], {}))`
of §4.F step 5 on a `Lemma` argument.  With zero arguments it reduces to: look the
rule up (*unknown rule* if absent), require zero premises (*arity mismatch*
otherwise), and return the conclusion template under the empty substitution. -/
def inferLeaf (ctx : Context) (n : Name) : Except VerificationError Term :=
  match dictGet ctx n with
  | none => .error (.unknownRule n)
  | some rule =>
    if rule.premises.length ≠ 0 then .error (.arityMismatch n)
    else .ok (multisubst [] rule.conclusion)

/-- Modelled from the spec: step 5 of `infer` (§4.F) over the premise/argument
pairs in order.  A placeholder argument is accepted without extending the
substitution; a `Lemma` argument has its conclusion inferred and matched against
the premise template under the accumulating substitution, failing with *premise
mismatch* if the match fails. -/
def inferArgs (ctx : Context) : Subst → List (Term × Argument) → Except VerificationError Subst
  | σ, [] => .ok σ
  | σ, (_, .Gap _) :: rest => inferArgs ctx σ rest
  | σ, (ptmpl, .Lemma n) :: rest =>
    match inferLeaf ctx n with
    | .error e => .error e
    | .ok actual =>
      match matchTerm σ ptmpl actual with
      | none => .error (.premiseMismatch n)
      | some σ' => inferArgs ctx σ' rest

/-- Modelled from the spec: `infer` of prover/checker.py (not under src/), §4.F.
Look up the cited rule, require as many arguments as premises, fold the
premise/argument pairs over the substitution initialized from the explicit
substitutions, and return `multisubst` of the final substitution into the
conclusion template.  The `bound` list is a pass-through the engine only
consults for freshness side-conditions, which no claim exercises. -/
def infer (ctx : Context) (bound : List Term) (p : Proof) : Except VerificationError Term :=
  match dictGet ctx p.edge with
  | none => .error (.unknownRule p.edge)
  | some rule =>
    if p.arguments.length ≠ rule.premises.length then .error (.arityMismatch p.edge)
    else
      match inferArgs ctx p.substitutions (rule.premises.zip p.arguments) with
      | .error e => .error e
      | .ok σ => .ok (multisubst σ rule.conclusion)

/-- Modelled from the spec: `check` of prover/checker.py (not under src/), §4.F:
infer the proof's conclusion and require structural equality with the expected
term, failing with *conclusion mismatch* otherwise. -/
def check (ctx : Context) (bound : List Term) (expected : Term) (p : Proof) :
    Except VerificationError Unit :=
  match infer ctx bound p with
  | .error e => .error e
  | .ok derived => if termEq derived expected then .ok () else
      .error (.conclusionMismatch expected derived)

/-- A surface element as the driver consumes it.  The reader (out of scope per
§1) hands the driver s-expressions; each one can be read as a symbol via
`symbol` of prover/parser.py (not under src/: it yields the atom's name and
fails on a non-atom, hence `isSym`) or lowered to a `Term` via
`parseterm` (already applied here, since the claims about the driver do not
depend on the lowering itself, which is verified separately on `macroexpand`). -/
structure SElem : Type where
  isSym : Bool
  name : Name
  tm : Term

/-- `isseparator` of principia.py (lines 19–21): a `Symbol` whose characters are
all `─` or all `-`. -/
def isseparator (e : SElem) : Bool :=
  e.isSym && (containsonly '─' e.name || containsonly '-' e.name)

/-- The non-verification errors the driver can raise.  `SyntaxError`s are raised
explicitly by the source; `indexError` models popping from an exhausted form;
`symbolNotAtom` models `symbol` of prover/parser.py (not under src/) applied to
a non-atom; `unknownForm` models the failed `assert` of `evaluate` (line 183);
`outOfFuel` models a run of nested `include`s that exceeds the recursion fuel. -/
inductive DriverError : Type
  | syntaxIncomplete
  | indexError
  | symbolNotAtom
  | mappedToNothing (v : Name)
  | invalidSubstList
  | unknownForm (head : Name)
  | outOfFuel

/-- The outcome of running driver code: the state after all mutations that
happened (Python mutates in place, so mutations before an exception survive it),
the diagnostics printed, and the exception that escaped, if any. -/
structure StepRes : Type where
  state : State
  output : List String
  err : Option DriverError

/-- Diagnostic of principia.py line 47. -/
def dupPostulateMsg (n : Name) : String := "Error: “" ++ n ++ "” is already postulated"

/-- Diagnostic of principia.py line 50. -/
def postulatedMsg (n : Name) : String := "“" ++ n ++ "” postulated"

/-- Diagnostic of principia.py line 128. -/
def dupTheoremMsg (n : Name) : String := "Error: theorem “" ++ n ++ "” is already defined"

/-- Diagnostic of principia.py line 134. -/
def checkedMsg (n : Name) : String := "“" ++ n ++ "” checked"

/-- Diagnostic of principia.py line 137. -/
def notCheckedMsg (n : Name) : String := "“" ++ n ++ "” has not been checked"

/-- Diagnostic of principia.py line 146, showing the already-registered precedence. -/
def dupOperatorMsg (n : Name) (prec : Int) : String :=
  "Error: operator “" ++ n ++ "” (" ++ toString prec ++ ") is already defined"

/-- The `while` loop of `postulate` (principia.py lines 38–56): pop elements in
order, collecting premises; at a separator, pop the rule name and its conclusion
and declare the rule unless the name already exists (in which case only a
diagnostic is printed and the original entry is kept), then clear the premises;
after the loop, leftover premises raise `SyntaxError("incomplete definition")`. -/
def postulateLoop : State → List String → List Term → List SElem → StepRes
  | s, out, prems, [] =>
    if prems.isEmpty then ⟨s, out, none⟩ else ⟨s, out, some .syntaxIncomplete⟩
  | s, out, prems, e :: rest =>
    if isseparator e then
      match rest with
      | [] => ⟨s, out, some .indexError⟩
      | nameE :: rest2 =>
        if nameE.isSym = false then ⟨s, out, some .symbolNotAtom⟩
        else
          match rest2 with
          | [] => ⟨s, out, some .indexError⟩
          | concE :: rest3 =>
            if dictMem s.context nameE.name then
              postulateLoop s (out ++ [dupPostulateMsg nameE.name]) [] rest3
            else
              postulateLoop
                { s with context := dictInsert s.context nameE.name ⟨prems, concE.tm⟩ }
                (out ++ [postulatedMsg nameE.name]) [] rest3
    else
      postulateLoop s out (prems ++ [e.tm]) rest

/-- `postulate` of principia.py (lines 38–56) on the elements of the form. -/
def postulate (s : State) (expr : List SElem) : StepRes :=
  postulateLoop s [] [] expr

/-- The payload of a `theorem`/`lemma` form after the parsing done by `preamble`
and `proofs` (principia.py lines 92–119): either the form was empty (line 116),
or it was split into the theorem name and conclusion, the premise names and
terms, the local lemma lines in order, and the final proof (the last pair
produced by `proofs`, whose name is discarded at line 119). -/
inductive TheoremExpr : Type
  | empty
  | parsed (name : Name) (conclusion : Term) (names : List Name) (premises : List Term)
      (localLines : List (Name × Proof)) (finalPrf : Proof)

/-- The theorem-local context of principia.py lines 121–125: a copy of the
global context updated with each premise as a zero-premise rule under its name. -/
def mkTctx (s : State) (names : List Name) (premises : List Term) : Context :=
  dictUpdate s.context ((names.zip premises).map fun np => (np.1, ⟨[], np.2⟩))

/-- The `try` body of `theorem` (principia.py lines 131–133): process the local
lemma lines in order, storing each inferred conclusion in the local context as a
zero-premise rule under the line's name, then `check` the final proof against
the stated conclusion. -/
def runProofs (bound : List Term) :
    Context → List (Name × Proof) → Proof → Term → Except VerificationError Unit
  | τctx, [], finalPrf, conclusion => check τctx bound conclusion finalPrf
  | τctx, (x, xs) :: rest, finalPrf, conclusion =>
    match infer τctx bound xs with
    | .error e => .error e
    | .ok c => runProofs bound (dictInsert τctx x ⟨[], c⟩) rest finalPrf conclusion

/-- `theorem` of principia.py (lines 115–138).  An empty form returns at once
(line 116).  Otherwise, if the name is already defined only a diagnostic is
printed; else the proofs run and on success the rule enters the global context,
while a `VerificationError` is caught and reported without touching the state. -/
def theoremCmd (s : State) : TheoremExpr → StepRes
  | .empty => ⟨s, [], none⟩
  | .parsed name conclusion names premises localLines finalPrf =>
    let τctx := mkTctx s names premises
    if dictMem s.context name then
      ⟨s, [dupTheoremMsg name], none⟩
    else
      match runProofs s.bound τctx localLines finalPrf conclusion with
      | .ok _ =>
        ⟨{ s with context := dictInsert s.context name ⟨premises, conclusion⟩ },
          [checkedMsg name], none⟩
      | .error e => ⟨s, [notCheckedMsg name, "Error: " ++ e.message], none⟩

/-- The operator form of principia.py (lines 140–150; its source name is the
Lean keyword for infix notation): a name already registered is reported with its
current precedence and kept; otherwise the new precedence is recorded. -/
def opCmd (s : State) (n : Name) (prec : Int) : StepRes :=
  match dictGet s.opPrec n with
  | some p0 => ⟨s, [dupOperatorMsg n p0], none⟩
  | none => ⟨{ s with opPrec := dictInsert s.opPrec n prec }, [], none⟩

/-- The recognized substitution separators (principia.py line 58). -/
def separatorsList : List Name := [":=", "≔"]

/-- `genenv` of principia.py (lines 59–71): consume the bracket contents three at
a time as variable, separator and replacement term; a run-out mid-triple raises
`SyntaxError("“%s” mapped to nothing")`, a wrong separator raises
`SyntaxError("invalid substitution list")`. -/
def genenv : List SElem → Except DriverError (List (Name × Term))
  | [] => .ok []
  | velem :: rest =>
    if velem.isSym = false then .error .symbolNotAtom
    else
      match rest with
      | [] => .error (.mappedToNothing velem.name)
      | selem :: rest2 =>
        if selem.isSym = false then .error .symbolNotAtom
        else
          match rest2 with
          | [] => .error (.mappedToNothing velem.name)
          | eelem :: rest3 =>
            if separatorsList.contains selem.name then
              match genenv rest3 with
              | .ok ps => .ok ((velem.name, eelem.tm) :: ps)
              | .error e => .error e
            else .error .invalidSubstList

/-- The substitution map a parsed proof carries: `dict(genenv(curr, substs.value()))`
of `proof` (principia.py line 90), i.e. Python's `dict()` built from the pairs
`genenv` yields in order. -/
def proofSubstitutions (l : List SElem) : Except DriverError Subst :=
  match genenv l with
  | .ok raw => .ok (pydict raw)
  | .error e => .error e

/-- A top-level form, dispatched by `evaluate` through the `forms` table
(principia.py lines 168–184).  `theoremF` covers both the `theorem` and the
`lemma` heads, which map to the same function; `opF` is the infix-operator form;
`unknownF` is a head absent from the table, on which the `assert` of `evaluate`
fails.  Term payloads are carried already lowered (see `SElem`). -/
inductive Form : Type
  | postulateF (entries : List SElem)
  | theoremF (payload : TheoremExpr)
  | opF (name : Name) (prec : Int)
  | variablesF (names : List Name)
  | boundF (tms : List Term)
  | defineF (pattern : Term) (body : Term)
  | includeF (paths : List String)
  | unknownF (head : Name)

/-- A file-system entry: a directory or a source file already read and split
into its top-level forms. -/
inductive FsEntry : Type
  | dir
  | file (forms : List Form)

/-- The file system visible to `dopath`, as a map from paths to entries; a path
not in the map does not exist. -/
abbrev FS := List (String × FsEntry)

mutual
/-- `evaluate` (principia.py lines 179–184) composed with the dispatched form
function: `postulate`, `theorem`/`lemma`, the operator form, `variables`
(line 152: extend the schematic names), `bound` (line 155: extend the bound
templates), `define` (line 158: append the pattern/body pair to `defs`) and
`include` (line 164: run `dopath` on each path in order, a raised error aborting
the rest).  An unknown head fails the `assert`.  The fuel bounds the depth of
nested `include`s; exhausting it models the unbounded recursion of a cyclic
include, which in the source ends in an uncaught `RecursionError`. -/
def evalForm (fs : FS) (fuel : Nat) (s : State) : Form → StepRes
  | .postulateF entries => postulate s entries
  | .theoremF payload => theoremCmd s payload
  | .opF n prec => opCmd s n prec
  | .variablesF names => ⟨{ s with vars := s.vars ++ names }, [], none⟩
  | .boundF tms => ⟨{ s with bound := s.bound ++ tms }, [], none⟩
  | .defineF pattern body => ⟨{ s with defs := s.defs ++ [(pattern, body)] }, [], none⟩
  | .includeF paths =>
    match fuel with
    | 0 => ⟨s, [], some .outOfFuel⟩
    | fuel' + 1 => includeLoop fs fuel' s paths
  | .unknownF head => ⟨s, [], some (.unknownForm head)⟩
termination_by f => (fuel, 2, 0)

/-- The loop of `include` (principia.py lines 164–166): `dopath` on each path in
order; an escaping error aborts the remaining paths. -/
def includeLoop (fs : FS) (fuel : Nat) (s : State) : List String → StepRes
  | [] => ⟨s, [], none⟩
  | p :: rest =>
    let r := dopath fs fuel s p
    match r.err with
    | some e => ⟨r.state, r.output, some e⟩
    | none =>
      let r2 := includeLoop fs fuel r.state rest
      ⟨r2.state, r.output ++ r2.output, r2.err⟩
termination_by ps => (fuel, 5, ps.length)

/-- `dopath` (principia.py lines 196–202): a missing path or a directory only
prints a diagnostic; a file prints `Checking` and is processed by `dofile` /
`doexprs`. -/
def dopath (fs : FS) (fuel : Nat) (s : State) (path : String) : StepRes :=
  match dictGet fs path with
  | none => ⟨s, ["Error: path " ++ path ++ " does not exists"], none⟩
  | some .dir => ⟨s, ["Error: path " ++ path ++ " is a directory"], none⟩
  | some (.file forms) =>
    let r := doForms fs fuel { s with vars := [] } forms
    ⟨r.state, ("Checking " ++ path) :: r.output, r.err⟩
termination_by (fuel, 4, 0)

/-- `doexprs` (principia.py lines 186–189) after the reset of the schematic
variables (which `dopath` performs here on entry): evaluate the file's forms in
order; an escaping error aborts the remaining forms of the file, keeping the
state mutations already made. -/
def doForms (fs : FS) (fuel : Nat) (s : State) : List Form → StepRes
  | [] => ⟨s, [], none⟩
  | f :: rest =>
    let r := evalForm fs fuel s f
    match r.err with
    | some e => ⟨r.state, r.output, some e⟩
    | none =>
      let r2 := doForms fs fuel r.state rest
      ⟨r2.state, r.output ++ r2.output, r2.err⟩
termination_by l => (fuel, 3, l.length)
end

/-- The module top level of principia.py (lines 204–206): a fresh `State`, then
`dopath` on each command-line file in order.  There is no handler around the
loop, so an error escaping one file aborts the remaining files. -/
def runFiles (fs : FS) (fuel : Nat) : State → List String → StepRes
  | s, [] => ⟨s, [], none⟩
  | s, p :: rest =>
    let r := dopath fs fuel s p
    match r.err with
    | some e => ⟨r.state, r.output, some e⟩
    | none =>
      let r2 := runFiles fs fuel r.state rest
      ⟨r2.state, r.output ++ r2.output, r2.err⟩

/-- A separator element: the box-drawing dash atom. -/
def sepE : SElem := ⟨true, "─", Term.Lit "─"⟩

/-- An atom element named `n` whose term reading is the literal `n`. -/
def litE (n : Name) : SElem := ⟨true, n, Term.Lit n⟩

/-- A two-file scenario: `a.pl` holds a postulate form that ends with a premise
and no separator or name — the explicit syntax error of principia.py lines
55–56 — and `b.pl` holds a well-formed postulate declaring `B`. -/
def fsC6 : FS :=
  [("a.pl", .file [.postulateF [litE "A"]]),
   ("b.pl", .file [.postulateF [sepE, litE "B", litE "B"]])]

/-- A key with a binding is a member of the dict. -/
theorem dictMem_of_dictGet {α : Type} {d : List (Name × α)} {k : Name} {v : α}
    (h : dictGet d k = some v) : dictMem d k = true := by
  unfold dictGet at h
  unfold dictMem
  cases hf : d.find? (fun p => p.1 == k) with
  | none => rw [hf] at h; simp at h
  | some p =>
    have hp := List.find?_some hf
    have hm := List.mem_of_find?_eq_some hf
    exact List.any_eq_true.mpr ⟨p, hm, hp⟩

/-- An absent key has no binding. -/
theorem dictGet_of_not_dictMem {α : Type} {d : List (Name × α)} {k : Name}
    (h : dictMem d k = false) : dictGet d k = none := by
  unfold dictGet
  cases hf : d.find? (fun p => p.1 == k) with
  | none => rfl
  | some p =>
    have hp := List.find?_some hf
    have hm := List.mem_of_find?_eq_some hf
    unfold dictMem at h
    rw [← Bool.not_eq_true] at h
    exact absurd (List.any_eq_true.mpr ⟨p, hm, hp⟩) h

/-- Inserting a fresh key does not disturb the binding of any present key. -/
theorem dictGet_insert_preserve {α : Type} {d : List (Name × α)} {k k' : Name} {v : α}
    {v' : α} (h : dictGet d k = some v) (hmem : dictMem d k' = false) :
    dictGet (dictInsert d k' v') k = some v := by
  have hins : dictInsert d k' v' = d ++ [(k', v')] := by
    unfold dictInsert; rw [hmem]; simp
  rw [hins]
  unfold dictGet at h ⊢
  rw [List.find?_append]
  cases hf : d.find? (fun p => p.1 == k) with
  | none => rw [hf] at h; simp at h
  | some p => rw [hf] at h; simpa using h

/-- Overwriting a present key in place binds it to the new value. -/
theorem dictGet_map_overwrite {α : Type} {d : List (Name × α)} {k : Name} (v : α)
    (hmem : dictMem d k = true) :
    dictGet (d.map fun p => if p.1 == k then (k, v) else p) k = some v := by
  induction d with
  | nil => simp [dictMem] at hmem
  | cons q d' ih =>
    by_cases hq : q.1 == k
    · simp [dictGet, List.find?, hq]
    · have hq' : (q.1 == k) = false := by simpa using hq
      have hmem' : dictMem d' k = true := by
        unfold dictMem at hmem ⊢
        simpa [hq'] using hmem
      unfold dictGet at ih ⊢
      simpa [List.find?, hq', hq] using ih hmem'

/-- After any insertion the inserted key is bound to the inserted value. -/
theorem dictGet_insert_self {α : Type} (d : List (Name × α)) (k : Name) (v : α) :
    dictGet (dictInsert d k v) k = some v := by
  unfold dictInsert
  cases hmem : dictMem d k with
  | true => simpa using dictGet_map_overwrite v hmem
  | false =>
    simp only [Bool.false_eq_true, if_false]
    unfold dictGet
    rw [List.find?_append]
    rw [List.find?_eq_none.mpr]
    · simp [List.find?]
    · intro p hp hpk
      have hany : dictMem d k = true := by
        unfold dictMem; exact List.any_eq_true.mpr ⟨p, hp, hpk⟩
      rw [hmem] at hany
      exact Bool.false_ne_true hany

/-- Membership in a dict is membership among its keys. -/
theorem dictMem_iff_mem_keys {α : Type} (d : List (Name × α)) (k : Name) :
    dictMem d k = true ↔ k ∈ dictKeys d := by
  unfold dictMem dictKeys
  rw [List.any_eq_true]
  constructor
  · rintro ⟨p, hp, hpk⟩
    exact List.mem_map.mpr ⟨p, hp, by simpa using hpk⟩
  · intro hk
    obtain ⟨p, hp, hpk⟩ := List.mem_map.mp hk
    exact ⟨p, hp, by simpa using hpk⟩

/-- Overwriting one key in place leaves the binding of any other key unchanged. -/
theorem dictGet_map_overwrite_ne {α : Type} {k k' : Name} (v : α) (hne : k' ≠ k)
    (d : List (Name × α)) :
    dictGet (d.map fun p => if p.1 == k' then (k', v) else p) k = dictGet d k := by
  induction d with
  | nil => rfl
  | cons q d' ih =>
    by_cases hq : q.1 == k'
    · have hq1 : q.1 = k' := by simpa using hq
      have hkk : (k' == k) = false := by simp [hne]
      have hqk : (q.1 == k) = false := by simp [hq1, hne]
      unfold dictGet at ih ⊢
      simp only [List.map_cons, List.find?_cons, hq, if_true, hkk, hqk]
      simpa using ih
    · have hq' : (q.1 == k') = false := by simpa using hq
      unfold dictGet at ih ⊢
      simp only [List.map_cons, List.find?_cons, hq', Bool.false_eq_true, if_false]
      cases hqk : q.1 == k with
      | true => simp [hqk]
      | false => simp only [hqk]; simpa using ih

/-- Insertion leaves the bindings of all other keys unchanged. -/
theorem dictGet_insert_ne {α : Type} (d : List (Name × α)) {k k' : Name} (v : α)
    (hne : k' ≠ k) : dictGet (dictInsert d k' v) k = dictGet d k := by
  unfold dictInsert
  cases hmem : dictMem d k' with
  | true => simpa using dictGet_map_overwrite_ne v hne d
  | false =>
    simp only [Bool.false_eq_true, if_false]
    unfold dictGet
    rw [List.find?_append]
    have hkk : (k' == k) = false := by simp [hne]
    have hone : List.find? (fun p => p.1 == k) [(k', v)] = none := by
      simp [List.find?_cons, hkk]
    rw [hone]
    cases d.find? (fun p => p.1 == k) <;> rfl

/-- Insertion rewrites the keys in place for a present key and appends a fresh one. -/
theorem dictKeys_insert {α : Type} (d : List (Name × α)) (k : Name) (v : α) :
    dictKeys (dictInsert d k v) =
      if dictMem d k then dictKeys d else dictKeys d ++ [k] := by
  unfold dictInsert
  cases hmem : dictMem d k with
  | true =>
    simp only [if_true]
    unfold dictKeys
    rw [List.map_map]
    refine List.map_congr_left ?_
    intro p hp
    by_cases hpk : p.1 == k
    · have : p.1 = k := by simpa using hpk
      simp [Function.comp, hpk, this]
    · have hpk' : (p.1 == k) = false := by simpa using hpk
      simp [Function.comp, hpk']
  | false =>
    simp only [Bool.false_eq_true, if_false]
    unfold dictKeys
    rw [List.map_append]
    rfl

/-- The keys of any Python `dict` built by assignments from empty are distinct. -/
theorem pydict_keys_nodup (ps : List (Name × Term)) : (dictKeys (pydict ps)).Nodup := by
  suffices h : ∀ (ps : List (Name × Term)) (d : Subst), (dictKeys d).Nodup →
      (dictKeys (ps.foldl (fun a p => dictInsert a p.1 p.2) d)).Nodup by
    exact h ps [] (by simp [dictKeys])
  intro ps
  induction ps with
  | nil => intro d hd; simpa using hd
  | cons p tl ih =>
    intro d hd
    rw [List.foldl_cons]
    refine ih (dictInsert d p.1 p.2) ?_
    rw [dictKeys_insert]
    cases hmem : dictMem d p.1 with
    | true => simpa using hd
    | false =>
      simp only [Bool.false_eq_true, if_false]
      have hnot : p.1 ∉ dictKeys d := by
        intro hk
        rw [← dictMem_iff_mem_keys] at hk
        rw [hmem] at hk
        exact Bool.false_ne_true hk
      simpa [List.nodup_append] using ⟨hd, hnot⟩

/-- Lookup in a Python `dict` built from a pair list returns the value of the
last pair written for the key, and the default for an unwritten key. -/
theorem dictGet_foldl_insert (ps : List (Name × Term)) (d : Subst) (n : Name) :
    dictGet (ps.foldl (fun a p => dictInsert a p.1 p.2) d) n =
      match ps.reverse.find? (fun p => p.1 == n) with
      | some p => some p.2
      | none => dictGet d n := by
  induction ps generalizing d with
  | nil => simp
  | cons p tl ih =>
    rw [List.foldl_cons, ih, List.reverse_cons, List.find?_append]
    cases hf : tl.reverse.find? (fun p => p.1 == n) with
    | some q => rfl
    | none =>
      by_cases hpn : p.1 == n
      · have heq : p.1 = n := by simpa using hpn
        simp only [List.find?, hpn, Option.none_orElse]
        subst heq
        exact dictGet_insert_self d p.1 p.2
      · have hpn' : (p.1 == n) = false := by simpa using hpn
        simp only [List.find?, hpn', Option.none_orElse]
        exact dictGet_insert_ne d p.2 (by simpa using hpn)

/-- The head-rewrite loop written with `List.findSome?`: the first definition
whose pattern matches yields the rewrite, and a term no pattern matches is kept. -/
theorem headRewrite_eq_findSome (ds : List (Term × Term)) (τ : Term) :
    headRewrite ds τ =
      (ds.findSome? fun pb =>
        (matchTerm [] pb.1 τ).map fun substs => multisubst substs pb.2).getD τ := by
  induction ds with
  | nil => rfl
  | cons pb rest ih =>
    obtain ⟨pattern, body⟩ := pb
    rw [headRewrite, List.findSome?_cons]
    cases h : matchTerm [] pattern τ with
    | some σ => simp [h]
    | none => simp [h, ih]

/-- The source expander and the specification's expander agree at every fuel,
both on terms and on child lists. -/
theorem expand_all_eq (ds : List (Term × Term)) :
    ∀ fuel : Nat, (∀ τ, macroexpand ds fuel τ = expandSpec ds fuel τ) ∧
      (∀ cs, macroexpandChildren ds fuel cs = expandSpecChildren ds fuel cs) := by
  intro fuel
  induction fuel with
  | zero =>
    refine ⟨fun τ => by simp [macroexpand, expandSpec], fun cs => ?_⟩
    cases cs with
    | nil => simp [macroexpandChildren, expandSpecChildren]
    | cons c cs' => simp [macroexpandChildren, expandSpecChildren, macroexpand, expandSpec]
  | succ fuel ih =>
    have hP : ∀ τ, macroexpand ds (fuel + 1) τ = expandSpec ds (fuel + 1) τ := by
      intro τ
      rw [macroexpand, expandSpec, ← headRewrite_eq_findSome]
      cases headRewrite ds τ with
      | Symtree cs => simp [ih.2 cs]
      | Lit n => rfl
      | Var n => rfl
      | Hole => rfl
    refine ⟨hP, fun cs => ?_⟩
    induction cs with
    | nil => simp [macroexpandChildren, expandSpecChildren]
    | cons c cs' ihc =>
      rw [macroexpandChildren, expandSpecChildren, hP c, ihc]

/-- `postulate` never removes or replaces an existing context binding. -/
theorem postulateLoop_mono {k : Name} {r : InferenceRule} :
    ∀ (s : State) (out : List String) (prems : List Term) (entries : List SElem),
      dictGet s.context k = some r →
      dictGet (postulateLoop s out prems entries).state.context k = some r := by
  intro s out prems entries
  induction s, out, prems, entries using postulateLoop.induct with
  | case1 s out prems hp => intro h; unfold postulateLoop; simp [hp]; exact h
  | case2 s out prems hp => intro h; unfold postulateLoop; simp [hp]; exact h
  | case3 s out prems e hsep => intro h; unfold postulateLoop; simp [hsep]; exact h
  | case4 s out prems e hsep nameE rest3 hsym =>
    intro h; unfold postulateLoop; simp [hsep, hsym]; exact h
  | case5 s out prems e hsep nameE hsym =>
    intro h; unfold postulateLoop
    have hsym' : nameE.isSym = true := by simpa using hsym
    simp [hsep, hsym']; exact h
  | case6 s out prems e hsep nameE hsym concE rest3 hmem ih =>
    intro h; unfold postulateLoop
    have hsym' : nameE.isSym = true := by simpa using hsym
    simp only [hsep, if_true, hsym', Bool.true_eq_false, if_false, hmem]
    exact ih h
  | case7 s out prems e hsep nameE hsym concE rest3 hmem ih =>
    intro h; unfold postulateLoop
    have hsym' : nameE.isSym = true := by simpa using hsym
    have hmem' : dictMem s.context nameE.name = false := by
      simpa using hmem
    simp only [hsep, if_true, hsym', Bool.true_eq_false, if_false, hmem',
      Bool.false_eq_true]
    exact ih (dictGet_insert_preserve h hmem')
  | case8 s out prems e rest hsep ih =>
    intro h; unfold postulateLoop
    simp only [hsep, Bool.false_eq_true, if_false]
    exact ih h

/-- `theorem`/`lemma` never removes or replaces an existing context binding. -/
theorem theoremCmd_mono {k : Name} {r : InferenceRule} (s : State) (payload : TheoremExpr)
    (h : dictGet s.context k = some r) :
    dictGet (theoremCmd s payload).state.context k = some r := by
  cases payload with
  | empty => exact h
  | parsed name conclusion names premises localLines finalPrf =>
    unfold theoremCmd
    dsimp only
    by_cases hmem : dictMem s.context name = true
    · rw [if_pos hmem]; exact h
    · rw [if_neg hmem]
      have hmem' : dictMem s.context name = false := by simpa using hmem
      cases hrun : runProofs s.bound (mkTctx s names premises) localLines finalPrf conclusion with
      | error e => exact h
      | ok u => simpa using dictGet_insert_preserve h hmem'

/-- Context monotonicity across the whole driver: no form evaluation, file run
or include loop ever removes or replaces an existing context binding. -/
theorem driver_mono (fs : FS) {k : Name} {r : InferenceRule} :
    ∀ fuel : Nat,
      (∀ (s : State) (f : Form), dictGet s.context k = some r →
        dictGet (evalForm fs fuel s f).state.context k = some r) ∧
      (∀ (s : State) (forms : List Form), dictGet s.context k = some r →
        dictGet (doForms fs fuel s forms).state.context k = some r) ∧
      (∀ (s : State) (p : String), dictGet s.context k = some r →
        dictGet (dopath fs fuel s p).state.context k = some r) ∧
      (∀ (s : State) (ps : List String), dictGet s.context k = some r →
        dictGet (includeLoop fs fuel s ps).state.context k = some r) := by
  intro fuel
  induction fuel using Nat.strong_induction_on with
  | _ fuel ih =>
    have hEval : ∀ (s : State) (f : Form), dictGet s.context k = some r →
        dictGet (evalForm fs fuel s f).state.context k = some r := by
      intro s f h
      cases f with
      | postulateF entries =>
        simp only [evalForm]
        exact postulateLoop_mono s [] [] entries h
      | theoremF payload =>
        simp only [evalForm]
        exact theoremCmd_mono s payload h
      | opF n prec =>
        simp only [evalForm]
        unfold opCmd
        cases dictGet s.opPrec n with
        | none => exact h
        | some p0 => exact h
      | variablesF names => simpa only [evalForm] using h
      | boundF tms => simpa only [evalForm] using h
      | defineF pattern body => simpa only [evalForm] using h
      | includeF paths =>
        cases fuel with
        | zero => simpa only [evalForm] using h
        | succ fuel' =>
          simp only [evalForm]
          exact (ih fuel' (Nat.lt_succ_self _)).2.2.2 s paths h
      | unknownF head => simpa only [evalForm] using h
    have hDoForms : ∀ (forms : List Form) (s : State), dictGet s.context k = some r →
        dictGet (doForms fs fuel s forms).state.context k = some r := by
      intro forms
      induction forms with
      | nil => intro s h; simpa only [doForms] using h
      | cons f rest ihf =>
        intro s h
        simp only [doForms]
        cases herr : (evalForm fs fuel s f).err with
        | some e => exact hEval s f h
        | none => exact ihf (evalForm fs fuel s f).state (hEval s f h)
    have hDopath : ∀ (s : State) (p : String), dictGet s.context k = some r →
        dictGet (dopath fs fuel s p).state.context k = some r := by
      intro s p h
      unfold dopath
      cases dictGet fs p with
      | none => exact h
      | some entry =>
        cases entry with
        | dir => exact h
        | file forms => exact hDoForms forms { s with vars := [] } h
    have hInclude : ∀ (ps : List String) (s : State), dictGet s.context k = some r →
        dictGet (includeLoop fs fuel s ps).state.context k = some r := by
      intro ps
      induction ps with
      | nil => intro s h; simpa only [includeLoop] using h
      | cons p rest ihp =>
        intro s h
        simp only [includeLoop]
        cases herr : (dopath fs fuel s p).err with
        | some e => exact hDopath s p h
        | none => exact ihp (dopath fs fuel s p).state (hDopath s p h)
    exact ⟨hEval, fun s forms => hDoForms forms s, hDopath, fun s ps => hInclude ps s⟩

/-- The inserted key is a member after insertion. -/
theorem dictMem_insert_self {α : Type} (d : List (Name × α)) (k : Name) (v : α) :
    dictMem (dictInsert d k v) k = true :=
  dictMem_of_dictGet (dictGet_insert_self d k v)

/-- The top-level file loop never removes or replaces a context binding either. -/
theorem runFiles_mono (fs : FS) {k : Name} {r : InferenceRule} (fuel : Nat) :
    ∀ (files : List String) (s : State), dictGet s.context k = some r →
      dictGet (runFiles fs fuel s files).state.context k = some r := by
  intro files
  induction files with
  | nil => intro s h; simpa only [runFiles] using h
  | cons p rest ihp =>
    intro s h
    simp only [runFiles]
    cases herr : (dopath fs fuel s p).err with
    | some e => exact (driver_mono fs fuel).2.2.1 s p h
    | none => exact ihp _ ((driver_mono fs fuel).2.2.1 s p h)

/-- C2: macro expansion performs at most one head rewrite — the first matching
definition in declaration order, from an empty substitution, rewrites the term
to `multisubst` of the accumulated bindings into the body and no further
definition is tried — and then, rewrite or not, a `Symtree` result has each
child recursively expanded in order while any other result is returned
unchanged: the source `macroexpand` agrees with `expandSpec`, the expander
written exactly as the specification words it, at every fuel. -/
theorem macroexpand_matches_spec (ds : List (Term × Term)) (fuel : Nat) (τ : Term) :
    macroexpand ds fuel τ = expandSpec ds fuel τ :=
  (expand_all_eq ds fuel).1 τ

/-- C3: the context grows monotonically — evaluating any top-level form, and
running any list of files, preserves every existing context binding: no key is
removed and no existing key's rule is replaced. -/
theorem context_monotonic (fs : FS) (fuel : Nat) (s : State) (f : Form)
    (files : List String) (k : Name) (r : InferenceRule)
    (h : dictGet s.context k = some r) :
    dictGet (evalForm fs fuel s f).state.context k = some r ∧
    dictGet (runFiles fs fuel s files).state.context k = some r :=
  ⟨(driver_mono fs fuel).1 s f h, runFiles_mono fs fuel files s h⟩

/-- Witness for C3 at a concrete input: a context holding `A` keeps its binding
when a postulate form adds `B` and when a (empty) file list is run. -/
theorem context_monotonic_witness :
    dictGet (evalForm [] 1 ⟨[], [], [("A", ⟨[], Term.Lit "A"⟩)], [], []⟩
        (.postulateF [sepE, litE "B", litE "B"])).state.context "A"
      = some ⟨[], Term.Lit "A"⟩ ∧
    dictGet (runFiles [] 1 ⟨[], [], [("A", ⟨[], Term.Lit "A"⟩)], [], []⟩ []).state.context "A"
      = some ⟨[], Term.Lit "A"⟩ :=
  context_monotonic [] 1 ⟨[], [], [("A", ⟨[], Term.Lit "A"⟩)], [], []⟩
    (.postulateF [sepE, litE "B", litE "B"]) [] "A" ⟨[], Term.Lit "A"⟩ rfl

/-- C9: an operator form whose name is already registered reports the collision
(showing the original precedence), keeps the original precedence, discards the
new one, and raises nothing, so processing continues. -/
theorem operator_redefinition_keeps_original (fs : FS) (fuel : Nat) (s : State)
    (n : Name) (p0 newp : Int) (h : dictGet s.opPrec n = some p0) :
    evalForm fs fuel s (.opF n newp) = ⟨s, [dupOperatorMsg n p0], none⟩ ∧
    dictGet (evalForm fs fuel s (.opF n newp)).state.opPrec n = some p0 := by
  have hop : opCmd s n newp = ⟨s, [dupOperatorMsg n p0], none⟩ := by
    unfold opCmd; rw [h]
  have he : evalForm fs fuel s (.opF n newp) = ⟨s, [dupOperatorMsg n p0], none⟩ := by
    simp only [evalForm]; exact hop
  exact ⟨he, by rw [he]; exact h⟩

/-- Witness for C9 at a concrete input: re-registering `∘` at precedence 9 when
it is registered at 7 reports the collision and keeps 7. -/
theorem operator_redefinition_keeps_original_witness :
    evalForm [] 0 ⟨[], [("∘", 7)], [], [], []⟩ (.opF "∘" 9)
      = ⟨⟨[], [("∘", 7)], [], [], []⟩, [dupOperatorMsg "∘" 7], none⟩ ∧
    dictGet (evalForm [] 0 ⟨[], [("∘", 7)], [], [], []⟩ (.opF "∘" 9)).state.opPrec "∘"
      = some 7 :=
  operator_redefinition_keeps_original [] 0 ⟨[], [("∘", 7)], [], [], []⟩ "∘" 7 9 rfl

/-- C10: a theorem or lemma form with an empty body is silently ignored — no
diagnostic, no error, no context addition, the state unchanged. -/
theorem empty_theorem_form_ignored (fs : FS) (fuel : Nat) (s : State) :
    theoremCmd s .empty = ⟨s, [], none⟩ ∧
    evalForm fs fuel s (.theoremF .empty) = ⟨s, [], none⟩ := by
  refine ⟨rfl, ?_⟩
  simp only [evalForm]
  rfl

/-- C4: a postulate or theorem whose name already exists in the context reports
the redefinition, leaves the original entry in place (a later lookup still
yields the original rule), and raises nothing, so the run continues. -/
theorem redefinition_reported_and_kept (fs : FS) (fuel : Nat) (s : State)
    (name : Name) (rule : InferenceRule) (tm0 : Term) (concE : SElem)
    (conclusion : Term) (names : List Name) (premises : List Term)
    (localLines : List (Name × Proof)) (finalPrf : Proof)
    (h : dictGet s.context name = some rule) :
    evalForm fs fuel s (.theoremF (.parsed name conclusion names premises localLines finalPrf))
      = ⟨s, [dupTheoremMsg name], none⟩ ∧
    evalForm fs fuel s (.postulateF [sepE, ⟨true, name, tm0⟩, concE])
      = ⟨s, [dupPostulateMsg name], none⟩ ∧
    dictGet (evalForm fs fuel s
        (.theoremF (.parsed name conclusion names premises localLines finalPrf))).state.context
      name = some rule ∧
    dictGet (evalForm fs fuel s
        (.postulateF [sepE, ⟨true, name, tm0⟩, concE])).state.context name = some rule := by
  have hmem := dictMem_of_dictGet h
  have hthm : theoremCmd s (.parsed name conclusion names premises localLines finalPrf)
      = ⟨s, [dupTheoremMsg name], none⟩ := by
    unfold theoremCmd; dsimp only; rw [if_pos hmem]
  have hstep : postulate s [sepE, ⟨true, name, tm0⟩, concE]
      = if dictMem s.context name
        then postulateLoop s ([] ++ [dupPostulateMsg name]) [] []
        else postulateLoop
          { s with context := dictInsert s.context name ⟨[], concE.tm⟩ }
          ([] ++ [postulatedMsg name]) [] [] := rfl
  have hpost : postulate s [sepE, ⟨true, name, tm0⟩, concE]
      = ⟨s, [dupPostulateMsg name], none⟩ := by
    rw [hstep, if_pos hmem]; rfl
  have he1 : evalForm fs fuel s
      (.theoremF (.parsed name conclusion names premises localLines finalPrf))
      = ⟨s, [dupTheoremMsg name], none⟩ := by
    simp only [evalForm]; exact hthm
  have he2 : evalForm fs fuel s (.postulateF [sepE, ⟨true, name, tm0⟩, concE])
      = ⟨s, [dupPostulateMsg name], none⟩ := by
    simp only [evalForm]; exact hpost
  exact ⟨he1, he2, by rw [he1]; exact h, by rw [he2]; exact h⟩

/-- Witness for C4 at a concrete input: redeclaring `A` by a theorem form and by
a postulate group is reported and the original rule for `A` is retained. -/
theorem redefinition_reported_and_kept_witness :
    evalForm [] 0 ⟨[], [], [("A", ⟨[], Term.Lit "A"⟩)], [], []⟩
      (.theoremF (.parsed "A" (Term.Lit "B") [] [] [] ⟨"A", [], []⟩))
      = ⟨⟨[], [], [("A", ⟨[], Term.Lit "A"⟩)], [], []⟩, [dupTheoremMsg "A"], none⟩ ∧
    evalForm [] 0 ⟨[], [], [("A", ⟨[], Term.Lit "A"⟩)], [], []⟩
      (.postulateF [sepE, ⟨true, "A", Term.Lit "A"⟩, litE "B"])
      = ⟨⟨[], [], [("A", ⟨[], Term.Lit "A"⟩)], [], []⟩, [dupPostulateMsg "A"], none⟩ ∧
    dictGet (evalForm [] 0 ⟨[], [], [("A", ⟨[], Term.Lit "A"⟩)], [], []⟩
        (.theoremF (.parsed "A" (Term.Lit "B") [] [] [] ⟨"A", [], []⟩))).state.context "A"
      = some ⟨[], Term.Lit "A"⟩ ∧
    dictGet (evalForm [] 0 ⟨[], [], [("A", ⟨[], Term.Lit "A"⟩)], [], []⟩
        (.postulateF [sepE, ⟨true, "A", Term.Lit "A"⟩, litE "B"])).state.context "A"
      = some ⟨[], Term.Lit "A"⟩ :=
  redefinition_reported_and_kept [] 0 ⟨[], [], [("A", ⟨[], Term.Lit "A"⟩)], [], []⟩
    "A" ⟨[], Term.Lit "A"⟩ (Term.Lit "A") (litE "B") (Term.Lit "B") [] [] []
    ⟨"A", [], []⟩ rfl

/-- C1: a theorem or lemma form whose proof fails verification — whatever the
verification error — prints the two diagnostic lines, does not add the name,
leaves the state (and so the global context) exactly as before, raises nothing,
and the following top-level forms are still processed. -/
theorem theorem_failure_caught (fs : FS) (fuel : Nat) (s : State) (name : Name)
    (conclusion : Term) (names : List Name) (premises : List Term)
    (localLines : List (Name × Proof)) (finalPrf : Proof) (e : VerificationError)
    (rest : List Form)
    (hnew : dictMem s.context name = false)
    (hfail : runProofs s.bound (mkTctx s names premises) localLines finalPrf conclusion
      = .error e) :
    theoremCmd s (.parsed name conclusion names premises localLines finalPrf)
      = ⟨s, [notCheckedMsg name, "Error: " ++ e.message], none⟩ ∧
    doForms fs fuel s
        (.theoremF (.parsed name conclusion names premises localLines finalPrf) :: rest)
      = ⟨(doForms fs fuel s rest).state,
         [notCheckedMsg name, "Error: " ++ e.message] ++ (doForms fs fuel s rest).output,
         (doForms fs fuel s rest).err⟩ := by
  have h1 : theoremCmd s (.parsed name conclusion names premises localLines finalPrf)
      = ⟨s, [notCheckedMsg name, "Error: " ++ e.message], none⟩ := by
    unfold theoremCmd; dsimp only
    rw [if_neg (by simp [hnew]), hfail]
  refine ⟨h1, ?_⟩
  have h2 : evalForm fs fuel s
      (.theoremF (.parsed name conclusion names premises localLines finalPrf))
      = ⟨s, [notCheckedMsg name, "Error: " ++ e.message], none⟩ := by
    simp only [evalForm]; exact h1
  simp only [doForms, h2]

/-- Witness for C1 at a concrete input: a theorem citing the unknown rule `X`
is reported, the context stays empty, and the (empty) remainder still runs. -/
theorem theorem_failure_caught_witness :
    theoremCmd State.init (.parsed "T" (Term.Lit "A") [] [] [] ⟨"X", [], []⟩)
      = ⟨State.init,
         [notCheckedMsg "T", "Error: " ++ (VerificationError.unknownRule "X").message],
         none⟩ ∧
    doForms [] 0 State.init [.theoremF (.parsed "T" (Term.Lit "A") [] [] [] ⟨"X", [], []⟩)]
      = ⟨(doForms [] 0 State.init []).state,
         [notCheckedMsg "T", "Error: " ++ (VerificationError.unknownRule "X").message]
           ++ (doForms [] 0 State.init []).output,
         (doForms [] 0 State.init []).err⟩ :=
  theorem_failure_caught [] 0 State.init "T" (Term.Lit "A") [] [] []
    ⟨"X", [], []⟩ (.unknownRule "X") [] rfl rfl

/-- C5: within a theorem block the local lemma lines are processed in
declaration order against the theorem-local context (the global context updated
with the premises as zero-premise rules, `mkTctx`): each line's proof is
`infer`red and its conclusion stored under the line's name as a zero-premise
rule; with the lines exhausted, the final proof is `check`ed against the stated
conclusion; and the global context receives the theorem's name exactly when
that run succeeds. -/
theorem theorem_block_locals_in_order (s : State) (name : Name) (conclusion : Term)
    (names : List Name) (premises : List Term) (localLines : List (Name × Proof))
    (finalPrf : Proof) (x : Name) (xs : Proof) (restL : List (Name × Proof))
    (c : Term) (τctx : Context)
    (hnew : dictMem s.context name = false)
    (hinf : infer τctx s.bound xs = .ok c) :
    runProofs s.bound τctx ((x, xs) :: restL) finalPrf conclusion
      = runProofs s.bound (dictInsert τctx x ⟨[], c⟩) restL finalPrf conclusion ∧
    runProofs s.bound τctx [] finalPrf conclusion = check τctx s.bound conclusion finalPrf ∧
    (dictMem (theoremCmd s
        (.parsed name conclusion names premises localLines finalPrf)).state.context name = true
      ↔ runProofs s.bound (mkTctx s names premises) localLines finalPrf conclusion
          = .ok ()) := by
  refine ⟨?_, rfl, ?_⟩
  · simp only [runProofs, hinf]
  · unfold theoremCmd; dsimp only
    rw [if_neg (by simp [hnew])]
    cases hrun : runProofs s.bound (mkTctx s names premises) localLines finalPrf conclusion with
    | ok u =>
      cases u
      simp [dictMem_insert_self]
    | error e =>
      simp [hnew]

/-- Witness for C5 at a concrete input: one local line citing the zero-premise
rule `A`, an empty remainder, and a fresh theorem name `T`. -/
theorem theorem_block_locals_in_order_witness :
    runProofs [] [("A", ⟨[], Term.Lit "A"⟩)] [("h", ⟨"A", [], []⟩)] ⟨"h", [], []⟩
        (Term.Lit "A")
      = runProofs [] (dictInsert [("A", ⟨[], Term.Lit "A"⟩)] "h" ⟨[], Term.Lit "A"⟩) []
          ⟨"h", [], []⟩ (Term.Lit "A") ∧
    runProofs [] [("A", ⟨[], Term.Lit "A"⟩)] [] ⟨"h", [], []⟩ (Term.Lit "A")
      = check [("A", ⟨[], Term.Lit "A"⟩)] [] (Term.Lit "A") ⟨"h", [], []⟩ ∧
    (dictMem (theoremCmd State.init
        (.parsed "T" (Term.Lit "A") [] [] [("h", ⟨"A", [], []⟩)] ⟨"h", [], []⟩)).state.context
        "T" = true
      ↔ runProofs [] (mkTctx State.init [] []) [("h", ⟨"A", [], []⟩)] ⟨"h", [], []⟩
          (Term.Lit "A") = .ok ()) :=
  theorem_block_locals_in_order State.init "T" (Term.Lit "A") [] []
    [("h", ⟨"A", [], []⟩)] ⟨"h", [], []⟩ "h" ⟨"A", [], []⟩ []
    (Term.Lit "A") [("A", ⟨[], Term.Lit "A"⟩)] rfl rfl

/-- C8: entering a file via `include` resets the schematic-variable list: the
whole resulting state is the one obtained by processing the included file's
forms from the current state with `variables` emptied, so the includer's earlier
declarations are discarded and only what the included file declares remains. -/
theorem include_resets_variables (fs : FS) (fuel : Nat) (s : State) (p : String)
    (forms : List Form) (h : dictGet fs p = some (.file forms)) :
    (evalForm fs (fuel + 1) s (.includeF [p])).state
      = (doForms fs fuel { s with vars := [] } forms).state := by
  have hdo : dopath fs fuel s p
      = ⟨(doForms fs fuel { s with vars := [] } forms).state,
         ("Checking " ++ p) :: (doForms fs fuel { s with vars := [] } forms).output,
         (doForms fs fuel { s with vars := [] } forms).err⟩ := by
    unfold dopath; rw [h]
  simp only [evalForm, includeLoop, hdo]
  cases (doForms fs fuel { s with vars := [] } forms).err with
  | some e => rfl
  | none => simp only [includeLoop]

/-- Witness for C8 at a concrete input: including a file that declares `y` from
a state that declared `x` leaves exactly the state the file produces from an
emptied variable list (in particular the variable list is `[y]`, not `[x, y]`). -/
theorem include_resets_variables_witness :
    (evalForm [("lib", .file [.variablesF ["y"]])] 1 ⟨["x"], [], [], [], []⟩
        (.includeF ["lib"])).state
      = (doForms [("lib", .file [.variablesF ["y"]])] 0
          { (⟨["x"], [], [], [], []⟩ : State) with vars := [] } [.variablesF ["y"]]).state :=
  include_resets_variables [("lib", .file [.variablesF ["y"]])] 0
    ⟨["x"], [], [], [], []⟩ "lib" [.variablesF ["y"]] rfl

/-- C7: the substitution map of a parsed proof term holds exactly one binding
per variable name — its keys are distinct — and a name written several times in
the bracketed substitution list is bound to the last occurrence written. -/
theorem proof_substitutions_last_write_wins (l : List SElem)
    (raw : List (Name × Term)) (d : Subst) (n : Name)
    (hraw : genenv l = .ok raw) (hd : proofSubstitutions l = .ok d) :
    (dictKeys d).Nodup ∧
    dictGet d n = (raw.reverse.find? fun p => p.1 == n).map (fun p => p.2) := by
  have hdp : d = pydict raw := by
    unfold proofSubstitutions at hd
    rw [hraw] at hd
    exact (Except.ok.inj hd).symm
  subst hdp
  refine ⟨pydict_keys_nodup raw, ?_⟩
  rw [pydict, dictGet_foldl_insert]
  cases raw.reverse.find? (fun p => p.1 == n) with
  | some q => rfl
  | none => rfl

/-- Witness for C7 at a concrete input: the list `x ≔ a x ≔ b` yields the raw
pairs `(x, a), (x, b)` and a substitution map binding `x` once, to `b`. -/
theorem proof_substitutions_last_write_wins_witness :
    (dictKeys [("x", Term.Lit "b")]).Nodup ∧
    dictGet [("x", Term.Lit "b")] "x"
      = ([("x", Term.Lit "a"), ("x", Term.Lit "b")].reverse.find?
          fun p => p.1 == "x").map (fun p => p.2) :=
  proof_substitutions_last_write_wins
    [⟨true, "x", Term.Lit "x"⟩, ⟨true, "≔", Term.Lit "≔"⟩, ⟨true, "a", Term.Lit "a"⟩,
     ⟨true, "x", Term.Lit "x"⟩, ⟨true, "≔", Term.Lit "≔"⟩, ⟨true, "b", Term.Lit "b"⟩]
    [("x", Term.Lit "a"), ("x", Term.Lit "b")] [("x", Term.Lit "b")] "x" rfl rfl

/-- Processing `a.pl` raises the incomplete-definition syntax error. -/
theorem dopath_fsC6_err : dopath fsC6 5 State.init "a.pl"
    = ⟨⟨[], [], [], [], []⟩, ["Checking a.pl"], some .syntaxIncomplete⟩ := by
  have hforms : doForms fsC6 5 ⟨[], [], [], [], []⟩ [.postulateF [litE "A"]]
      = ⟨⟨[], [], [], [], []⟩, [], some .syntaxIncomplete⟩ := by
    simp only [doForms, evalForm]
    rfl
  unfold dopath
  rw [show dictGet fsC6 "a.pl" = some (.file [.postulateF [litE "A"]]) from rfl]
  simp only [State.init]
  rw [hforms]
  rfl

/-- C6 counterexample: with `a.pl b.pl` on the command line, the syntax error in
`a.pl` escapes the file boundary uncaught, the run stops, and `b.pl` is never
processed — its postulate `B` is absent from the shared state, where the claim
says files listed after the failing one are still processed into it. -/
theorem syntax_error_aborts_whole_run_counterexample :
    (runFiles fsC6 5 State.init ["a.pl", "b.pl"]).err = some .syntaxIncomplete ∧
    dictMem (runFiles fsC6 5 State.init ["a.pl", "b.pl"]).state.context "B" = false := by
  constructor
  · simp only [runFiles, dopath_fsC6_err]
  · simp only [runFiles, dopath_fsC6_err]
    rfl

/-- C6 (amended): a non-verification error — such as a postulate form ending
with premises and no separator/name, or an unknown form head — aborts the
remaining forms of the current file and, being uncaught at the module top
level, also aborts every file listed after it on the command line; the state
mutations made before the error are kept. -/
theorem nonverification_error_aborts_run (fs : FS) (fuel : Nat) (s : State)
    (f : Form) (forms : List Form) (p : String) (files : List String)
    (e e' : DriverError)
    (hf : (evalForm fs fuel s f).err = some e)
    (hp : (dopath fs fuel s p).err = some e') :
    doForms fs fuel s (f :: forms)
      = ⟨(evalForm fs fuel s f).state, (evalForm fs fuel s f).output, some e⟩ ∧
    runFiles fs fuel s (p :: files)
      = ⟨(dopath fs fuel s p).state, (dopath fs fuel s p).output, some e'⟩ := by
  constructor
  · simp only [doForms, hf]
  · simp only [runFiles, hp]

/-- Witness for the amended C6 at a concrete input: the syntax error of `a.pl`
stops the forms of the current file and the remaining command-line file. -/
theorem nonverification_error_aborts_run_witness :
    doForms fsC6 5 State.init
        [.postulateF [litE "A"], .postulateF [sepE, litE "C", litE "C"]]
      = ⟨(evalForm fsC6 5 State.init (.postulateF [litE "A"])).state,
         (evalForm fsC6 5 State.init (.postulateF [litE "A"])).output,
         some .syntaxIncomplete⟩ ∧
    runFiles fsC6 5 State.init ["a.pl", "b.pl"]
      = ⟨(dopath fsC6 5 State.init "a.pl").state,
         (dopath fsC6 5 State.init "a.pl").output, some .syntaxIncomplete⟩ :=
  nonverification_error_aborts_run fsC6 5 State.init (.postulateF [litE "A"])
    [.postulateF [sepE, litE "C", litE "C"]] "a.pl" ["b.pl"]
    .syntaxIncomplete .syntaxIncomplete
    (by simp only [evalForm]; rfl)
    (by rw [dopath_fsC6_err])

end Principia
